import Mathlib

/-!
# go-concurrency-demo: sequential and concurrent fetch runners

A shallow embedding of `main.go`.

* Go `int` values are mathematical integers (`Int`).  The two variables that
  steer control flow (`i` of the `for` loops, `count`) are wrapped to 64-bit
  two's complement after every `++`.  `Result.Success` and `Result.Fail` are
  only ever incremented next to an `append` to the matching slice, and the
  length of a Go slice is itself an `int`, so these increments are modelled
  without wrap-around.
* The network is a parameter: a `Fetcher` gives, for an id, what the HTTP GET
  plus JSON decoding of `fetchPost` ends in.
* `time.Since(start)` is a parameter (`elapsed`); console output of the
  runners is not modelled, the printed `Result` is what the runners return.
* `withConcurrent` is a transition system over the goroutines of the
  function: the main goroutine, one goroutine per id, and the goroutine that
  waits on the `sync.WaitGroup`.  A send on an unbuffered channel is one
  joint step of sender and receiver.
-/

namespace GoConcurrencyDemo

/-! ## Data model (`main.go` lines 12-33) -/

/-- Package variable `limit` (line 13). -/
def limit : Int := 100

/-- Largest value of a Go `int` on a 64-bit platform. -/
def maxInt : Int := 2 ^ 63 - 1

/-- Smallest value of a Go `int` on a 64-bit platform. -/
def minInt : Int := -(2 ^ 63)

/-- Two's complement wrap-around of an integer to 64 bits. -/
def wrapInt (x : Int) : Int := (x + 2 ^ 63) % 2 ^ 64 - 2 ^ 63

/-- Struct `Post` (lines 15-20). -/
structure Post where
  ID : Int
  UserID : Int
  Title : String
  Body : String
  deriving DecidableEq, Repr

/-- The zero value `Post{}`. -/
def Post.zero : Post := { ID := 0, UserID := 0, Title := "", Body := "" }

/-- Struct `Result` (lines 22-28); `TotalDuration` in nanoseconds. -/
structure Result where
  Success : Int
  Fail : Int
  TotalDuration : Int
  SuccessIDs : List Int
  FailIDs : List Int
  deriving DecidableEq, Repr

/-- Struct `ErrorPost` (lines 30-33); the error is kept as its text. -/
structure ErrorPost where
  ID : Int
  Err : String
  deriving DecidableEq, Repr

/-- What the HTTP GET and the JSON decoding end in for an id: the decoded
post, or the text of the transport or decoding error. -/
abbrev Fetcher := Int → Except String Post

/-- Function `fetchPost` (lines 151-167): both error paths return `Post{}`
together with the error, the success path the decoded post and `nil`. -/
def fetchPost (net : Fetcher) (id : Int) : Post × Option String :=
  match net id with
  | .error e => (Post.zero, some e)
  | .ok post => (post, none)

/-- The literal `Result{SuccessIDs: make([]int, 0), FailIDs: make([]int, 0)}`
(lines 56-59 and 121-124). -/
def Result.init : Result :=
  { Success := 0, Fail := 0, TotalDuration := 0, SuccessIDs := [], FailIDs := [] }

/-! ## Sequential runner (`withoutConcurrent`, lines 53-83) -/

/-- Lines 64-65: `result.Fail++; result.FailIDs = append(result.FailIDs, i)`. -/
def Result.recordFail (r : Result) (i : Int) : Result :=
  { r with Fail := r.Fail + 1, FailIDs := r.FailIDs ++ [i] }

/-- Lines 69-70: `result.SuccessIDs = append(result.SuccessIDs, i);
result.Success++`. -/
def Result.recordSuccess (r : Result) (i : Int) : Result :=
  { r with SuccessIDs := r.SuccessIDs ++ [i], Success := r.Success + 1 }

/-- Body of the `for` loop of `withoutConcurrent` (lines 62-70) for one `i`. -/
def withoutConcurrentBody (net : Fetcher) (r : Result) (i : Int) : Result :=
  match (fetchPost net i).2 with
  | some _ => r.recordFail i
  | none => r.recordSuccess i

/-- The loop `for i := 1; i <= limit; i++` of `withoutConcurrent`
(lines 61-71), entered with loop variable `i` and result `r`.  Every
iteration uses one unit of fuel; `none` means the fuel ran out before the
condition `i <= limit` failed. -/
def withoutConcurrentLoop (net : Fetcher) (lim : Int) : Nat → Int → Result → Option Result
  | 0, _, _ => none
  | fuel + 1, i, r =>
    if i ≤ lim then
      withoutConcurrentLoop net lim fuel (wrapInt (i + 1)) (withoutConcurrentBody net r i)
    else
      some r

/-- Function `withoutConcurrent` (lines 53-83): the `Result` it prints. -/
def withoutConcurrent (net : Fetcher) (lim : Int) (elapsed : Int) (fuel : Nat) :
    Option Result :=
  match withoutConcurrentLoop net lim fuel 1 Result.init with
  | none => none
  | some r => some { r with TotalDuration := elapsed }

/-! ## Mode selection (`main`, lines 35-51) -/

/-- What `main` does besides returning. -/
inductive Effect where
  | println (s : String)
  | runWithoutConcurrent
  | runWithConcurrent
  deriving DecidableEq, Repr

/-- How `main` ends: it returns, or the runtime panics on an index that is
out of range. -/
inductive Exit where
  | returned
  | indexOutOfRange (index len : Nat)
  deriving DecidableEq, Repr

/-- Function `main` (lines 35-51) on the argument vector `os.Args`: the
effects in order and how it ends.  `args[1]` is evaluated first, in the
condition of line 37. -/
def main (args : List String) : List Effect × Exit :=
  match args[1]? with
  | none => ([], Exit.indexOutOfRange 1 args.length)
  | some a =>
    if a = "" then
      ([Effect.println "arguments are missing"], Exit.returned)
    else if a = "--without-concurrent" then
      ([Effect.runWithoutConcurrent], Exit.returned)
    else if a = "--with-concurrent" then
      ([Effect.runWithConcurrent], Exit.returned)
    else
      ([], Exit.returned)

/-! ## Concurrent runner (`withConcurrent`, lines 85-149) -/

/-- A value sent on `postChan` (a `Post`) or on `errChan` (an `ErrorPost`). -/
inductive Message where
  | post (p : Post)
  | err (e : ErrorPost)
  deriving DecidableEq, Repr

/-- Where a fetch goroutine (lines 98-110) stands: before the call of line
101, at the send of line 103, at the send of line 109, at the deferred
`wg.Done()` of line 99, or finished. -/
inductive TaskPc where
  | atFetch
  | atErrSend (post : Post) (err : String)
  | atPostSend (post : Post)
  | atDone
  | finished
  deriving DecidableEq, Repr

/-- A fetch goroutine: its argument `id` and where it stands. -/
structure Task where
  id : Int
  pc : TaskPc
  deriving DecidableEq, Repr

/-- One step of a fetch goroutine (lines 98-110): the message it sends in
that step, if the step is a send, and where it stands afterwards.  After a
failed fetch the goroutine sends on `errChan` and goes on to line 109. -/
def Task.next (net : Fetcher) (t : Task) : Option (Option Message × Task) :=
  match t.pc with
  | .atFetch =>
    match fetchPost net t.id with
    | (post, some err) => some (none, { t with pc := .atErrSend post err })
    | (post, none) => some (none, { t with pc := .atPostSend post })
  | .atErrSend post err =>
    some (some (.err { ID := t.id, Err := err }), { t with pc := .atPostSend post })
  | .atPostSend post => some (some (.post post), { t with pc := .atDone })
  | .atDone => some (none, { t with pc := .finished })
  | .finished => none

/-- The messages a fetch goroutine sends in its first `n` steps, in order,
when every send finds a receiver. -/
def Task.run (net : Fetcher) : Nat → Task → List Message
  | 0, _ => []
  | n + 1, t =>
    match t.next net with
    | none => []
    | some (m, t') => m.toList ++ Task.run net n t'

/-- The messages the goroutine started for `id` sends until it finishes
(a goroutine finishes within four steps). -/
def taskMessages (net : Fetcher) (id : Int) : List Message :=
  Task.run net 4 { id := id, pc := .atFetch }

/-- Lines 129-130: `result.SuccessIDs = append(result.SuccessIDs, post.ID);
result.Success++`. -/
def Result.mergePost (r : Result) (post : Post) : Result :=
  { r with SuccessIDs := r.SuccessIDs ++ [post.ID], Success := r.Success + 1 }

/-- Lines 133-134: `result.FailIDs = append(result.FailIDs, err.ID);
result.Fail++`. -/
def Result.mergeErr (r : Result) (err : ErrorPost) : Result :=
  { r with FailIDs := r.FailIDs ++ [err.ID], Fail := r.Fail + 1 }

/-- The case body of the `select` (lines 128-134) that a message leads to. -/
def Result.merge (r : Result) : Message → Result
  | .post p => r.mergePost p
  | .err e => r.mergeErr e

/-- Where the main goroutine stands in `withConcurrent`: at the condition of
the `for` of line 94 with loop variable `i`, at the `go` of line 113, blocked
in the `select` of line 127, in the case body of lines 129-130 or of lines
132-134 with the value received, or returned through line 146. -/
inductive MainPc where
  | atLoop (i : Int)
  | atWatcherStart
  | atSelect
  | atPostCase (post : Post)
  | atErrCase (err : ErrorPost)
  | returned
  deriving DecidableEq, Repr

/-- Where the goroutine of lines 113-119 stands: not started, blocked in
`wg.Wait()` (line 114), at the test of line 116, or finished. -/
inductive WatcherPc where
  | notStarted
  | atWait
  | atCheck
  | finished
  deriving DecidableEq, Repr

/-- State of a run of `withConcurrent`. -/
structure State where
  mainPc : MainPc
  count : Int
  wg : Int
  tasks : List Task
  watcher : WatcherPc
  doneClosed : Bool
  result : Result
  deriving DecidableEq, Repr

/-- State on entry to the loop of line 94. -/
def State.init : State :=
  { mainPc := .atLoop 1, count := 0, wg := 0, tasks := [], watcher := .notStarted,
    doneClosed := false, result := Result.init }

/-- Which goroutine moves: the main goroutine, the `k`-th fetch goroutine
(in the order they were started), or the goroutine of lines 113-119. -/
inductive Action where
  | main
  | task (k : Nat)
  | watcher
  deriving DecidableEq, Repr

/-- A step of the main goroutine on its own (lines 94-97, 113-124, 129-130,
133-134, 135-146).  In the `select` it can move on its own only through the
`doneChan` case, which needs `doneChan` closed. -/
def stepMain (lim elapsed : Int) (s : State) : Option State :=
  match s.mainPc with
  | .atLoop i =>
    if i ≤ lim then
      some { s with
        wg := s.wg + 1
        count := wrapInt (s.count + 1)
        tasks := s.tasks ++ [{ id := i, pc := .atFetch }]
        mainPc := .atLoop (wrapInt (i + 1)) }
    else
      some { s with mainPc := .atWatcherStart }
  | .atWatcherStart =>
    some { s with watcher := .atWait, result := Result.init, mainPc := .atSelect }
  | .atSelect =>
    if s.doneClosed then
      some { s with
        result := { s.result with TotalDuration := elapsed }
        mainPc := .returned }
    else
      none
  | .atPostCase post => some { s with result := s.result.mergePost post, mainPc := .atSelect }
  | .atErrCase err => some { s with result := s.result.mergeErr err, mainPc := .atSelect }
  | .returned => none

/-- The case of the `select` that receives a message. -/
def MainPc.receive : Message → MainPc
  | .post p => .atPostCase p
  | .err e => .atErrCase e

/-- A step of the `k`-th fetch goroutine.  A send on the unbuffered
`errChan` or `postChan` happens only while the main goroutine is blocked in
the `select`, and moves the main goroutine into the matching case; the
deferred `wg.Done()` decrements the wait group counter. -/
def stepTask (net : Fetcher) (k : Nat) (s : State) : Option State :=
  match s.tasks[k]? with
  | none => none
  | some t =>
    match t.next net with
    | none => none
    | some (none, t') =>
      some { s with
        tasks := s.tasks.set k t'
        wg := if t.pc = .atDone then s.wg - 1 else s.wg }
    | some (some m, t') =>
      if s.mainPc = .atSelect then
        some { s with tasks := s.tasks.set k t', mainPc := MainPc.receive m }
      else
        none

/-- A step of the goroutine of lines 113-119: `wg.Wait()` returns once the
counter is zero; then `doneChan` is closed if `count == limit`. -/
def stepWatcher (lim : Int) (s : State) : Option State :=
  match s.watcher with
  | .notStarted => none
  | .atWait => if s.wg = 0 then some { s with watcher := .atCheck } else none
  | .atCheck =>
    some { s with
      doneClosed := if s.count = lim then true else s.doneClosed
      watcher := .finished }
  | .finished => none

/-- One step of the run; `none` when the chosen goroutine cannot move. -/
def step (net : Fetcher) (lim elapsed : Int) (s : State) : Action → Option State
  | .main => stepMain lim elapsed s
  | .task k => stepTask net k s
  | .watcher => stepWatcher lim s

/-- The state a schedule leads to from `s`, when every step of it can be
taken. -/
def exec (net : Fetcher) (lim elapsed : Int) : State → List Action → Option State
  | s, [] => some s
  | s, a :: as =>
    match step net lim elapsed s a with
    | none => none
    | some s' => exec net lim elapsed s' as

/-- Function `withConcurrent` (lines 85-149) under a schedule: the `Result`
it prints when the schedule leads to the `return` of line 146. -/
def withConcurrent (net : Fetcher) (lim elapsed : Int) (sched : List Action) :
    Option Result :=
  match exec net lim elapsed State.init sched with
  | none => none
  | some s => if s.mainPc = .returned then some s.result else none

/-- The ids `1, 2, ..., n` in ascending order. -/
def ids (n : Nat) : List Int := (List.range n).map (fun (k : Nat) => (k : Int) + 1)

/-- Whether the fetch of `id` fails. -/
def fails (net : Fetcher) (id : Int) : Bool := (fetchPost net id).2.isSome

/-- A fetcher that fails exactly for the ids in `F`, and otherwise returns a
post whose `ID` is the requested id. -/
def stubFetcher (F : List Int) : Fetcher := fun id =>
  if id ∈ F then .error "stub failure"
  else .ok { ID := id, UserID := 0, Title := "", Body := "" }

/-! ## Specification helpers -/

/-- The result of the sequential loop once the ids `1..k` are processed. -/
def seqAfter (net : Fetcher) (k : Nat) : Result :=
  { Success := (((ids k).filter (fun i => !fails net i)).length : Int)
    Fail := (((ids k).filter (fails net)).length : Int)
    TotalDuration := 0
    SuccessIDs := (ids k).filter (fun i => !fails net i)
    FailIDs := (ids k).filter (fails net) }

/-- The `ID`s of the posts among the messages, as the `postChan` case
appends them. -/
def postIDs (ms : List Message) : List Int :=
  ms.filterMap (fun m => match m with
    | .post p => some p.ID
    | .err _ => none)

/-- The `ID`s of the errors among the messages, as the `errChan` case
appends them. -/
def errIDs (ms : List Message) : List Int :=
  ms.filterMap (fun m => match m with
    | .post _ => none
    | .err e => some e.ID)

/-- The messages a fetch goroutine has sent by the time it stands at its
program point: none before the first send, all but the last at the send of
line 109, all of them after it. -/
def Task.sent (net : Fetcher) (t : Task) : List Message :=
  match t.pc with
  | .atFetch => []
  | .atErrSend _ _ => []
  | .atPostSend _ => (taskMessages net t.id).dropLast
  | .atDone => taskMessages net t.id
  | .finished => taskMessages net t.id

/-- The local variables `post` and `err` of a fetch goroutine hold what
`fetchPost` returned for its id. -/
def Task.wf (net : Fetcher) (t : Task) : Prop :=
  match t.pc with
  | .atErrSend post err => fetchPost net t.id = (post, some err)
  | .atPostSend post => (fetchPost net t.id).1 = post
  | _ => True

/-- The message the main goroutine has received and not yet merged. -/
def MainPc.pending : MainPc → List Message
  | .atPostCase p => [.post p]
  | .atErrCase e => [.err e]
  | _ => []

/-- The main goroutine has not yet reached the `select`. -/
def MainPc.spawning : MainPc → Bool
  | .atLoop _ => true
  | .atWatcherStart => true
  | _ => false

/-- Counter and list agree, for successes and for failures. -/
def Result.countsMatch (r : Result) : Prop :=
  r.Success = (r.SuccessIDs.length : Int) ∧ r.Fail = (r.FailIDs.length : Int)

/-- Invariant of the run of `withConcurrent`, for every `limit`. -/
structure Inv (net : Fetcher) (lim : Int) (s : State) : Prop where
  wf : ∀ t ∈ s.tasks, t.wf net
  wg_eq : s.wg = ((s.tasks.countP (fun t => decide (t.pc ≠ TaskPc.finished)) : Nat) : Int)
  spawn_watcher : s.mainPc.spawning = true → s.watcher = .notStarted
  spawn_sent : s.mainPc.spawning = true → ∀ t ∈ s.tasks, t.sent net = []
  spawn_result : s.mainPc.spawning = true → s.result = Result.init
  watcher_done : s.watcher = .atCheck ∨ s.watcher = .finished →
    ∀ t ∈ s.tasks, t.pc = TaskPc.finished
  closed : s.doneClosed = true → s.watcher = .finished ∧ s.count = lim
  returned : s.mainPc = .returned → s.doneClosed = true
  posts : (s.result.SuccessIDs ++ postIDs s.mainPc.pending).Perm
    (postIDs (s.tasks.flatMap (Task.sent net)))
  errs : (s.result.FailIDs ++ errIDs s.mainPc.pending).Perm
    (errIDs (s.tasks.flatMap (Task.sent net)))
  counts : s.result.countsMatch

/-- Invariant of the spawning loop of `withConcurrent` for a `limit` below
the largest `int`: the goroutines started so far are those of the ids below
the loop variable, and `count` is their number. -/
structure IdsInv (lim : Int) (s : State) : Prop where
  loop : ∀ i, s.mainPc = .atLoop i →
    ∃ k : Nat, i = (k : Int) + 1 ∧ k ≤ lim.toNat ∧
      s.tasks.map (fun t => t.id) = ids k ∧ s.count = k
  past : (∀ i, s.mainPc ≠ .atLoop i) →
    s.tasks.map (fun t => t.id) = ids lim.toNat ∧ s.count = lim.toNat

/-- A schedule for `limit = 3`: the three goroutines are started and fetch,
goroutine 1 (id 2) sends its error, goroutines 0 and 2 send their posts,
goroutine 1 sends its post, all three finish, and the wait group goroutine
closes `doneChan`.  The main goroutine is left blocked in the `select`. -/
def demoSchedule : List Action :=
  [.main, .main, .main, .main, .main, .task 0, .task 1, .task 2,
   .task 1, .main, .task 0, .main, .task 2, .main, .task 1, .main,
   .task 0, .task 1, .task 2, .watcher, .watcher]

/-- The state `demoSchedule` leads to when the fetch of id 2 fails. -/
def demoState : State :=
  { mainPc := .atSelect, count := 3, wg := 0,
    tasks := [{ id := 1, pc := .finished }, { id := 2, pc := .finished },
              { id := 3, pc := .finished }],
    watcher := .finished, doneClosed := true,
    result := { Success := 3, Fail := 1, TotalDuration := 0,
                SuccessIDs := [1, 3, 0], FailIDs := [2] } }

/-- The steps that take the `k`-th goroutine, started for `id`, from its
start to its end while the main goroutine waits in the `select`: the fetch,
each send followed by the case body of the main goroutine, and the deferred
`wg.Done()`. -/
def taskSchedule (net : Fetcher) (id : Int) (k : Nat) : List Action :=
  if fails net id then [.task k, .task k, .main, .task k, .main, .task k]
  else [.task k, .task k, .main, .task k]

/-- The goroutines of the ids of the list, one after the other, the first of
them being the `k`-th goroutine. -/
def tasksSchedule (net : Fetcher) : Nat → List Int → List Action
  | _, [] => []
  | k, id :: rest => taskSchedule net id k ++ tasksSchedule net (k + 1) rest

/-- A schedule that runs `withConcurrent` to its `return` for `limit = n`:
the main goroutine starts all goroutines and reaches the `select`, then the
goroutines run one after the other, then the wait group goroutine closes
`doneChan` and the main goroutine takes the `doneChan` case. -/
def fullSchedule (net : Fetcher) (n : Nat) : List Action :=
  List.replicate (n + 2) Action.main ++
    (tasksSchedule net 0 (ids n) ++ [Action.watcher, Action.watcher, Action.main])

/-- The state after `k` iterations of the loop of line 94. -/
def spawnState (k : Nat) : State :=
  { mainPc := .atLoop ((k : Int) + 1), count := k, wg := k,
    tasks := (ids k).map (fun i => { id := i, pc := .atFetch }),
    watcher := .notStarted, doneClosed := false, result := Result.init }

/-- A state with the main goroutine in the `select`, the goroutines of the
ids `done` finished and those of the ids `todo` not yet started on their
fetch. -/
def midState (n : Nat) (done todo : List Int) (r : Result) : State :=
  { mainPc := .atSelect, count := n, wg := todo.length,
    tasks := done.map (fun i => { id := i, pc := .finished }) ++
      todo.map (fun i => { id := i, pc := .atFetch }),
    watcher := .atWait, doneClosed := false, result := r }

/-! ## Integers and id lists -/

theorem wrapInt_of_inRange (x : Int) (h1 : minInt ≤ x) (h2 : x ≤ maxInt) : wrapInt x = x := by
  unfold wrapInt
  unfold minInt at h1
  unfold maxInt at h2
  rw [Int.emod_eq_of_lt (by omega) (by omega)]
  omega

theorem wrapInt_le_maxInt (x : Int) : wrapInt x ≤ maxInt := by
  unfold wrapInt maxInt
  have h := Int.emod_lt_of_pos (x + 2 ^ 63) (show (0 : Int) < 2 ^ 64 by norm_num)
  omega

theorem ids_succ (k : Nat) : ids (k + 1) = ids k ++ [(k : Int) + 1] := by
  simp [ids, List.range_succ]

theorem mem_ids (n : Nat) (x : Int) : x ∈ ids n ↔ 1 ≤ x ∧ x ≤ n := by
  simp only [ids, List.mem_map, List.mem_range]
  constructor
  · rintro ⟨k, hk, rfl⟩
    constructor <;> omega
  · rintro ⟨h1, h2⟩
    refine ⟨(x - 1).toNat, by omega, ?_⟩
    have h := Int.toNat_of_nonneg (show 0 ≤ x - 1 by omega)
    omega

theorem ids_sorted (n : Nat) : (ids n).Sorted (· < ·) := by
  unfold ids
  refine (List.pairwise_lt_range n).map _ (fun a b hab => ?_)
  show (a : Int) + 1 < (b : Int) + 1
  omega

theorem ids_nodup (n : Nat) : (ids n).Nodup := (ids_sorted n).nodup

theorem ids_length (n : Nat) : (ids n).length = n := by
  simp only [ids, List.length_map, List.length_range]

/-! ## The sequential loop -/

theorem seqAfter_zero (net : Fetcher) : seqAfter net 0 = Result.init := by
  simp [seqAfter, ids, Result.init]

theorem body_seqAfter (net : Fetcher) (k : Nat) :
    withoutConcurrentBody net (seqAfter net k) ((k : Int) + 1) = seqAfter net (k + 1) := by
  unfold withoutConcurrentBody
  cases h : (fetchPost net ((k : Int) + 1)).2 with
  | some e =>
    have hf : fails net ((k : Int) + 1) = true := by simp [fails, h]
    simp [seqAfter, Result.recordFail, ids_succ, List.filter_append, hf]
  | none =>
    have hf : fails net ((k : Int) + 1) = false := by simp [fails, h]
    simp [seqAfter, Result.recordSuccess, ids_succ, List.filter_append, hf]

theorem loop_seqAfter (net : Fetcher) (n : Nat) (hn : (n : Int) < maxInt) :
    ∀ (fuel k : Nat), k ≤ n →
      withoutConcurrentLoop net n fuel ((k : Int) + 1) (seqAfter net k) =
        if n - k < fuel then some (seqAfter net n) else none := by
  intro fuel
  induction fuel with
  | zero => intro k _; simp [withoutConcurrentLoop]
  | succ fuel ih =>
    intro k hk
    unfold withoutConcurrentLoop
    by_cases hlt : k < n
    · have hle : (k : Int) + 1 ≤ n := by omega
      have hw : wrapInt ((k : Int) + 1 + 1) = ((k + 1 : Nat) : Int) + 1 := by
        rw [wrapInt_of_inRange]
        · push_cast; ring
        · unfold minInt; omega
        · omega
      rw [if_pos hle, hw, body_seqAfter, ih (k + 1) (by omega)]
      have : (n - (k + 1) < fuel) ↔ (n - k < fuel + 1) := by omega
      simp only [this]
    · have hkn : k = n := by omega
      subst hkn
      have hnle : ¬ ((k : Int) + 1 ≤ k) := by omega
      rw [if_neg hnle]
      simp

theorem loop_maxInt (net : Fetcher) :
    ∀ (fuel : Nat) (i : Int) (r : Result), i ≤ maxInt →
      withoutConcurrentLoop net maxInt fuel i r = none := by
  intro fuel
  induction fuel with
  | zero => intro i r _; simp [withoutConcurrentLoop]
  | succ fuel ih =>
    intro i r hi
    unfold withoutConcurrentLoop
    rw [if_pos hi]
    exact ih _ _ (wrapInt_le_maxInt _)

/-- What `withoutConcurrent` returns, for every amount of fuel. -/
theorem withoutConcurrent_eq (net : Fetcher) (n : Nat) (elapsed : Int) (fuel : Nat)
    (hn : (n : Int) < maxInt) :
    withoutConcurrent net n elapsed fuel =
      if n < fuel then some { seqAfter net n with TotalDuration := elapsed } else none := by
  have h := loop_seqAfter net n hn fuel 0 (Nat.zero_le n)
  simp only [Nat.cast_zero, zero_add, seqAfter_zero, Nat.sub_zero] at h
  unfold withoutConcurrent
  rw [h]
  split_ifs <;> rfl

theorem withoutConcurrent_maxInt (net : Fetcher) (elapsed : Int) (fuel : Nat) :
    withoutConcurrent net maxInt elapsed fuel = none := by
  unfold withoutConcurrent
  rw [loop_maxInt net fuel 1 Result.init (by unfold maxInt; norm_num)]

/-- Every finished run of `withoutConcurrent` with `0 ≤ N` ends in the
result of processing the ids `1..N` in order. -/
theorem withoutConcurrent_some (net : Fetcher) (N elapsed : Int) (fuel : Nat) (r : Result)
    (h0 : 0 ≤ N) (hN : N ≤ maxInt) (h : withoutConcurrent net N elapsed fuel = some r) :
    r = { seqAfter net N.toNat with TotalDuration := elapsed } := by
  rcases eq_or_lt_of_le hN with hmax | hlt
  · subst hmax
    rw [withoutConcurrent_maxInt] at h
    cases h
  · obtain ⟨n, rfl⟩ := Int.eq_ofNat_of_zero_le h0
    rw [withoutConcurrent_eq net n elapsed fuel hlt] at h
    split_ifs at h
    simpa using h.symm

/-- With `N + 1` units of fuel `withoutConcurrent` finishes. -/
theorem withoutConcurrent_finishes (net : Fetcher) (N elapsed : Int)
    (h0 : 0 ≤ N) (hN : N < maxInt) :
    withoutConcurrent net N elapsed (N.toNat + 1) =
      some { seqAfter net N.toNat with TotalDuration := elapsed } := by
  obtain ⟨n, rfl⟩ := Int.eq_ofNat_of_zero_le h0
  rw [withoutConcurrent_eq net n elapsed _ hN]
  simp



/-! ## Facts about the sequential result -/

theorem seqAfter_perm (net : Fetcher) (n : Nat) :
    ((seqAfter net n).SuccessIDs ++ (seqAfter net n).FailIDs).Perm (ids n) := by
  have h := List.filter_append_perm (fails net) (ids n)
  refine (List.perm_append_comm).trans ?_
  simpa [seqAfter] using h

theorem seqAfter_sum (net : Fetcher) (n : Nat) :
    (seqAfter net n).Success + (seqAfter net n).Fail = n := by
  have h := (seqAfter_perm net n).length_eq
  rw [List.length_append, ids_length] at h
  simp only [seqAfter] at h ⊢
  omega

theorem sorted_eq_sort (l : List Int) (F : Finset Int) (hs : l.Sorted (· < ·))
    (hm : ∀ x, x ∈ l ↔ x ∈ F) : l = F.sort (· ≤ ·) := by
  refine List.eq_of_perm_of_sorted ?_ hs.le_of_lt (Finset.sort_sorted _ F)
  rw [List.perm_ext_iff_of_nodup hs.nodup (Finset.sort_nodup _ F)]
  intro x
  rw [hm, Finset.mem_sort]

/-! ## Lists with one entry replaced -/

theorem countP_set_add {α : Type} (p : α → Bool) :
    ∀ (l : List α) (k : Nat) (a b : α), l[k]? = some a →
      (l.set k b).countP p + (if p a then 1 else 0) =
        l.countP p + (if p b then 1 else 0) := by
  intro l
  induction l with
  | nil => intro k a b h; simp at h
  | cons x xs ih =>
    intro k a b h
    cases k with
    | zero =>
      simp only [List.getElem?_cons_zero, Option.some.injEq] at h
      subst h
      simp only [List.set_cons_zero, List.countP_cons]
      omega
    | succ k =>
      simp only [List.getElem?_cons_succ] at h
      have := ih k a b h
      simp only [List.set_cons_succ, List.countP_cons]
      omega

theorem flatMap_set_perm {α β : Type} (f : α → List β) :
    ∀ (l : List α) (k : Nat) (a b : α) (ms : List β), l[k]? = some a →
      f b = f a ++ ms → ((l.set k b).flatMap f).Perm (l.flatMap f ++ ms) := by
  intro l
  induction l with
  | nil => intro k a b ms h; simp at h
  | cons x xs ih =>
    intro k a b ms h hf
    cases k with
    | zero =>
      simp only [List.getElem?_cons_zero, Option.some.injEq] at h
      subst h
      simp only [List.set_cons_zero, List.flatMap_cons, hf, List.append_assoc]
      exact List.Perm.append_left _ List.perm_append_comm
    | succ k =>
      simp only [List.getElem?_cons_succ] at h
      have := ih k a b ms h hf
      simp only [List.set_cons_succ, List.flatMap_cons, List.append_assoc]
      exact List.Perm.append_left _ this

theorem map_set_same {α β : Type} (f : α → β) :
    ∀ (l : List α) (k : Nat) (a b : α), l[k]? = some a → f b = f a →
      (l.set k b).map f = l.map f := by
  intro l
  induction l with
  | nil => intro k a b h; simp at h
  | cons x xs ih =>
    intro k a b h hf
    cases k with
    | zero =>
      simp only [List.getElem?_cons_zero, Option.some.injEq] at h
      subst h
      simp [hf]
    | succ k =>
      simp only [List.getElem?_cons_succ] at h
      simp [ih k a b h hf]

/-! ## What one fetch goroutine sends -/

theorem taskMessages_ok (net : Fetcher) (id : Int) (post : Post)
    (h : fetchPost net id = (post, none)) : taskMessages net id = [.post post] := by
  simp [taskMessages, Task.run, Task.next, h]

theorem taskMessages_fail (net : Fetcher) (id : Int) (post : Post) (e : String)
    (h : fetchPost net id = (post, some e)) :
    taskMessages net id = [.err { ID := id, Err := e }, .post post] := by
  simp [taskMessages, Task.run, Task.next, h]

theorem fetchPost_fail_zero (net : Fetcher) (id : Int) (post : Post) (e : String)
    (h : fetchPost net id = (post, some e)) : post = Post.zero := by
  unfold fetchPost at h
  cases hn : net id with
  | error e' => rw [hn] at h; simp at h; exact h.1.symm
  | ok p => rw [hn] at h; simp at h

theorem postIDs_taskMessages (net : Fetcher) (id : Int) :
    postIDs (taskMessages net id) = [(fetchPost net id).1.ID] := by
  rcases h : fetchPost net id with ⟨post, _ | e⟩
  · simp [taskMessages_ok net id post h, postIDs]
  · simp [taskMessages_fail net id post e h, postIDs]

theorem errIDs_taskMessages (net : Fetcher) (id : Int) :
    errIDs (taskMessages net id) = if fails net id then [id] else [] := by
  rcases h : fetchPost net id with ⟨post, _ | e⟩
  · simp [taskMessages_ok net id post h, errIDs, fails, h]
  · simp [taskMessages_fail net id post e h, errIDs, fails, h]

theorem postIDs_flatMap (net : Fetcher) (l : List Int) :
    postIDs (l.flatMap (taskMessages net)) = l.map (fun id => (fetchPost net id).1.ID) := by
  induction l with
  | nil => rfl
  | cons x xs ih =>
    have h := postIDs_taskMessages net x
    unfold postIDs at h ih ⊢
    simp only [List.flatMap_cons, List.filterMap_append, h, ih, List.map_cons,
      List.singleton_append]

theorem errIDs_flatMap (net : Fetcher) (l : List Int) :
    errIDs (l.flatMap (taskMessages net)) = l.filter (fails net) := by
  induction l with
  | nil => rfl
  | cons x xs ih =>
    have h := errIDs_taskMessages net x
    unfold errIDs at h ih ⊢
    simp only [List.flatMap_cons, List.filterMap_append, h, ih, List.filter_cons]
    cases fails net x <;> simp

/-! ## The invariant holds along every run -/

theorem inv_init (net : Fetcher) (lim : Int) : Inv net lim State.init where
  wf := by simp [State.init]
  wg_eq := by simp [State.init]
  spawn_watcher := by simp [State.init]
  spawn_sent := by simp [State.init]
  spawn_result := by simp [State.init]
  watcher_done := by simp [State.init]
  closed := by simp [State.init]
  returned := by simp [State.init]
  posts := by simp [State.init, Result.init, MainPc.pending, postIDs]
  errs := by simp [State.init, Result.init, MainPc.pending, errIDs]
  counts := by simp [State.init, Result.init, Result.countsMatch]

theorem inv_stepMain (net : Fetcher) (lim elapsed : Int) (s s' : State)
    (hi : Inv net lim s) (h : stepMain lim elapsed s = some s') : Inv net lim s' := by
  unfold stepMain at h
  cases hpc : s.mainPc with
  | atLoop i =>
    rw [hpc] at h
    have hsp : s.mainPc.spawning = true := by rw [hpc]; rfl
    have hw := hi.spawn_watcher hsp
    have hs := hi.spawn_sent hsp
    have hr := hi.spawn_result hsp
    by_cases hle : i ≤ lim
    · simp only [hle, if_true, Option.some.injEq] at h
      subst h
      constructor
      · intro t ht
        simp only [List.mem_append, List.mem_singleton] at ht
        rcases ht with ht | rfl
        · exact hi.wf t ht
        · simp [Task.wf]
      · simp [hi.wg_eq]
      · intro _; exact hw
      · intro _ t ht
        simp only [List.mem_append, List.mem_singleton] at ht
        rcases ht with ht | rfl
        · exact hs t ht
        · simp [Task.sent]
      · intro _; exact hr
      · intro hc; simp [hw] at hc
      · intro hc
        have := (hi.closed hc).1
        simp [hw] at this
      · intro hc; simp at hc
      · have := hi.posts
        rw [hpc] at this
        simpa [MainPc.pending, Task.sent, List.flatMap_append] using this
      · have := hi.errs
        rw [hpc] at this
        simpa [MainPc.pending, Task.sent, List.flatMap_append] using this
      · exact hi.counts
    · simp only [hle, if_false, Option.some.injEq] at h
      subst h
      constructor
      · exact hi.wf
      · exact hi.wg_eq
      · intro _; exact hw
      · intro _; exact hs
      · intro _; exact hr
      · exact hi.watcher_done
      · exact hi.closed
      · intro hc; simp at hc
      · have := hi.posts
        rw [hpc] at this
        simpa [MainPc.pending] using this
      · have := hi.errs
        rw [hpc] at this
        simpa [MainPc.pending] using this
      · exact hi.counts
  | atWatcherStart =>
    rw [hpc] at h
    have hsp : s.mainPc.spawning = true := by rw [hpc]; rfl
    have hw := hi.spawn_watcher hsp
    have hs := hi.spawn_sent hsp
    have hr := hi.spawn_result hsp
    simp only [Option.some.injEq] at h
    subst h
    constructor
    · exact hi.wf
    · exact hi.wg_eq
    · intro hc; simp [MainPc.spawning] at hc
    · intro hc; simp [MainPc.spawning] at hc
    · intro hc; simp [MainPc.spawning] at hc
    · intro hc; simp at hc
    · intro hc
      have := (hi.closed hc).1
      simp [hw] at this
    · intro hc; simp at hc
    · have := hi.posts
      rw [hpc, hr] at this
      simpa [MainPc.pending] using this
    · have := hi.errs
      rw [hpc, hr] at this
      simpa [MainPc.pending] using this
    · simp [Result.init, Result.countsMatch]
  | atSelect =>
    rw [hpc] at h
    by_cases hd : s.doneClosed = true
    · rw [if_pos hd] at h
      simp only [Option.some.injEq] at h
      subst h
      constructor
      · exact hi.wf
      · exact hi.wg_eq
      · intro hc; simp [MainPc.spawning] at hc
      · intro hc; simp [MainPc.spawning] at hc
      · intro hc; simp [MainPc.spawning] at hc
      · exact hi.watcher_done
      · exact hi.closed
      · intro _; exact hd
      · have := hi.posts
        rw [hpc] at this
        simpa [MainPc.pending] using this
      · have := hi.errs
        rw [hpc] at this
        simpa [MainPc.pending] using this
      · exact hi.counts
    · simp [hd] at h
  | atPostCase post =>
    rw [hpc] at h
    simp only [Option.some.injEq] at h
    subst h
    constructor
    · exact hi.wf
    · exact hi.wg_eq
    · intro hc; simp [MainPc.spawning] at hc
    · intro hc; simp [MainPc.spawning] at hc
    · intro hc; simp [MainPc.spawning] at hc
    · exact hi.watcher_done
    · exact hi.closed
    · intro hc; simp at hc
    · have := hi.posts
      rw [hpc] at this
      simpa [MainPc.pending, Result.mergePost, postIDs] using this
    · have := hi.errs
      rw [hpc] at this
      simpa [MainPc.pending, Result.mergePost, errIDs] using this
    · have := hi.counts
      simp only [Result.countsMatch, Result.mergePost, List.length_append,
        List.length_singleton] at this ⊢
      omega
  | atErrCase err =>
    rw [hpc] at h
    simp only [Option.some.injEq] at h
    subst h
    constructor
    · exact hi.wf
    · exact hi.wg_eq
    · intro hc; simp [MainPc.spawning] at hc
    · intro hc; simp [MainPc.spawning] at hc
    · intro hc; simp [MainPc.spawning] at hc
    · exact hi.watcher_done
    · exact hi.closed
    · intro hc; simp at hc
    · have := hi.posts
      rw [hpc] at this
      simpa [MainPc.pending, Result.mergeErr, postIDs] using this
    · have := hi.errs
      rw [hpc] at this
      simpa [MainPc.pending, Result.mergeErr, errIDs] using this
    · have := hi.counts
      simp only [Result.countsMatch, Result.mergeErr, List.length_append,
        List.length_singleton] at this ⊢
      omega
  | returned =>
    rw [hpc] at h
    simp at h

theorem inv_stepWatcher (net : Fetcher) (lim : Int) (s s' : State)
    (hi : Inv net lim s) (h : stepWatcher lim s = some s') : Inv net lim s' := by
  unfold stepWatcher at h
  cases hw : s.watcher with
  | notStarted => rw [hw] at h; simp at h
  | atWait =>
    rw [hw] at h
    by_cases h0 : s.wg = 0
    · rw [if_pos h0] at h
      simp only [Option.some.injEq] at h
      subst h
      have hsp : s.mainPc.spawning ≠ true := by
        intro hc
        have := hi.spawn_watcher hc
        simp [hw] at this
      have hall : ∀ t ∈ s.tasks, t.pc = TaskPc.finished := by
        have hc := hi.wg_eq
        rw [h0] at hc
        have hc' : s.tasks.countP (fun t => decide (t.pc ≠ TaskPc.finished)) = 0 := by
          omega
        rw [List.countP_eq_zero] at hc'
        intro t ht
        simpa using hc' t ht
      constructor
      · exact hi.wf
      · exact hi.wg_eq
      · intro hc; exact absurd hc hsp
      · intro hc; exact absurd hc hsp
      · intro hc; exact absurd hc hsp
      · intro _; exact hall
      · intro hc
        have := (hi.closed hc).1
        simp [hw] at this
      · exact hi.returned
      · exact hi.posts
      · exact hi.errs
      · exact hi.counts
    · simp [h0] at h
  | atCheck =>
    rw [hw] at h
    simp only [Option.some.injEq] at h
    subst h
    have hsp : s.mainPc.spawning ≠ true := by
      intro hc
      have := hi.spawn_watcher hc
      simp [hw] at this
    have hnc : s.doneClosed ≠ true := by
      intro hc
      have := (hi.closed hc).1
      simp [hw] at this
    constructor
    · exact hi.wf
    · exact hi.wg_eq
    · intro hc; exact absurd hc hsp
    · intro hc; exact absurd hc hsp
    · intro hc; exact absurd hc hsp
    · intro _; exact hi.watcher_done (Or.inl hw)
    · intro hc
      refine ⟨rfl, ?_⟩
      by_cases hcl : s.count = lim
      · exact hcl
      · simp only [hcl, if_false] at hc
        exact absurd hc hnc
    · intro hc
      have := hi.returned hc
      exact absurd this hnc
    · exact hi.posts
    · exact hi.errs
    · exact hi.counts
  | finished => rw [hw] at h; simp at h

/-- The five steps a fetch goroutine can take. -/
theorem stepTask_cases (net : Fetcher) (k : Nat) (s s' : State)
    (h : stepTask net k s = some s') :
    ∃ t, s.tasks[k]? = some t ∧
      ((∃ post err, t.pc = .atFetch ∧ fetchPost net t.id = (post, some err) ∧
          s' = { s with tasks := s.tasks.set k { t with pc := .atErrSend post err } }) ∨
       (∃ post, t.pc = .atFetch ∧ fetchPost net t.id = (post, none) ∧
          s' = { s with tasks := s.tasks.set k { t with pc := .atPostSend post } }) ∨
       (∃ post err, t.pc = .atErrSend post err ∧ s.mainPc = .atSelect ∧
          s' = { s with
            tasks := s.tasks.set k { t with pc := .atPostSend post }
            mainPc := .atErrCase { ID := t.id, Err := err } }) ∨
       (∃ post, t.pc = .atPostSend post ∧ s.mainPc = .atSelect ∧
          s' = { s with
            tasks := s.tasks.set k { t with pc := .atDone }
            mainPc := .atPostCase post }) ∨
       (t.pc = .atDone ∧
          s' = { s with
            tasks := s.tasks.set k { t with pc := .finished }
            wg := s.wg - 1 })) := by
  unfold stepTask at h
  cases ht : s.tasks[k]? with
  | none => rw [ht] at h; simp at h
  | some t =>
    rw [ht] at h
    refine ⟨t, rfl, ?_⟩
    cases hpc : t.pc with
    | atFetch =>
      rcases hf : fetchPost net t.id with ⟨post, _ | err⟩
      · right; left
        refine ⟨post, rfl, rfl, ?_⟩
        simp [Task.next, hpc, hf] at h
        exact h.symm
      · left
        refine ⟨post, err, rfl, rfl, ?_⟩
        simp [Task.next, hpc, hf] at h
        exact h.symm
    | atErrSend post err =>
      right; right; left
      refine ⟨post, err, rfl, ?_⟩
      by_cases hm : s.mainPc = .atSelect
      · simp [Task.next, hpc, hm, MainPc.receive] at h
        exact ⟨hm, h.symm⟩
      · simp [Task.next, hpc, hm] at h
    | atPostSend post =>
      right; right; right; left
      refine ⟨post, rfl, ?_⟩
      by_cases hm : s.mainPc = .atSelect
      · simp [Task.next, hpc, hm, MainPc.receive] at h
        exact ⟨hm, h.symm⟩
      · simp [Task.next, hpc, hm] at h
    | atDone =>
      right; right; right; right
      refine ⟨rfl, ?_⟩
      simp [Task.next, hpc] at h
      exact h.symm
    | finished => simp [Task.next, hpc] at h

theorem mem_set_cases {α : Type} (l : List α) (k : Nat) (b x : α)
    (h : x ∈ l.set k b) : x = b ∨ x ∈ l := by
  rcases List.mem_or_eq_of_mem_set h with h | h
  · exact Or.inr h
  · exact Or.inl h

/-- An internal step of a goroutine that neither sends nor finishes keeps
the invariant. -/
theorem inv_taskInternal (net : Fetcher) (lim : Int) (s : State) (k : Nat) (t t' : Task)
    (hi : Inv net lim s) (ht : s.tasks[k]? = some t) (hwf : t'.wf net)
    (hpc : t.pc ≠ .finished) (hpc' : t'.pc ≠ .finished)
    (hsent : t'.sent net = t.sent net) :
    Inv net lim { s with tasks := s.tasks.set k t' } := by
  have hmem : t ∈ s.tasks := List.getElem?_mem ht
  constructor
  · intro x hx
    rcases mem_set_cases _ _ _ _ hx with rfl | hx
    · exact hwf
    · exact hi.wf x hx
  · have := countP_set_add (fun t => decide (t.pc ≠ TaskPc.finished)) s.tasks k t t' ht
    simp only [hpc, hpc', ne_eq, not_false_eq_true, decide_True, if_true] at this
    have h2 := hi.wg_eq
    simp only [ne_eq] at h2 ⊢
    omega
  · exact hi.spawn_watcher
  · intro hsp x hx
    rcases mem_set_cases _ _ _ _ hx with rfl | hx
    · rw [hsent]; exact hi.spawn_sent hsp t hmem
    · exact hi.spawn_sent hsp x hx
  · exact hi.spawn_result
  · intro hw
    exact absurd (hi.watcher_done hw t hmem) hpc
  · exact hi.closed
  · exact hi.returned
  · have hp := flatMap_set_perm (Task.sent net) s.tasks k t t' [] ht (by simp [hsent])
    simp only [List.append_nil] at hp
    exact hi.posts.trans (hp.filterMap _).symm
  · have hp := flatMap_set_perm (Task.sent net) s.tasks k t t' [] ht (by simp [hsent])
    simp only [List.append_nil] at hp
    exact hi.errs.trans (hp.filterMap _).symm
  · exact hi.counts

/-- A send of a goroutine to the main goroutine blocked in the `select`
keeps the invariant. -/
theorem inv_taskSend (net : Fetcher) (lim : Int) (s : State) (k : Nat) (t t' : Task)
    (m : Message) (hi : Inv net lim s) (ht : s.tasks[k]? = some t) (hwf : t'.wf net)
    (hpc : t.pc ≠ .finished) (hpc' : t'.pc ≠ .finished) (hm : s.mainPc = .atSelect)
    (hsent : t'.sent net = t.sent net ++ [m]) :
    Inv net lim { s with tasks := s.tasks.set k t', mainPc := MainPc.receive m } := by
  have hmem : t ∈ s.tasks := List.getElem?_mem ht
  have hns : ∀ m : Message, (MainPc.receive m).spawning ≠ true := by
    intro m; cases m <;> simp [MainPc.receive, MainPc.spawning]
  have hnr : ∀ m : Message, MainPc.receive m ≠ .returned := by
    intro m; cases m <;> simp [MainPc.receive]
  have hpend : ∀ m : Message, (MainPc.receive m).pending = [m] := by
    intro m; cases m <;> rfl
  constructor
  · intro x hx
    rcases mem_set_cases _ _ _ _ hx with rfl | hx
    · exact hwf
    · exact hi.wf x hx
  · have := countP_set_add (fun t => decide (t.pc ≠ TaskPc.finished)) s.tasks k t t' ht
    simp only [hpc, hpc', ne_eq, not_false_eq_true, decide_True, if_true] at this
    have h2 := hi.wg_eq
    simp only [ne_eq] at h2 ⊢
    omega
  · intro hc; exact absurd hc (hns m)
  · intro hc; exact absurd hc (hns m)
  · intro hc; exact absurd hc (hns m)
  · intro hw
    exact absurd (hi.watcher_done hw t hmem) hpc
  · exact hi.closed
  · intro hc; exact absurd hc (hnr m)
  · have hp := flatMap_set_perm (Task.sent net) s.tasks k t t' [m] ht hsent
    have h1 := hi.posts
    rw [hm] at h1
    simp only [MainPc.pending, postIDs, List.filterMap_nil, List.append_nil] at h1
    simp only [hpend, postIDs]
    refine List.Perm.trans ?_ (hp.filterMap _).symm
    rw [List.filterMap_append]
    exact h1.append_right _
  · have hp := flatMap_set_perm (Task.sent net) s.tasks k t t' [m] ht hsent
    have h1 := hi.errs
    rw [hm] at h1
    simp only [MainPc.pending, errIDs, List.filterMap_nil, List.append_nil] at h1
    simp only [hpend, errIDs]
    refine List.Perm.trans ?_ (hp.filterMap _).symm
    rw [List.filterMap_append]
    exact h1.append_right _
  · exact hi.counts

theorem inv_stepTask (net : Fetcher) (lim : Int) (k : Nat) (s s' : State)
    (hi : Inv net lim s) (h : stepTask net k s = some s') : Inv net lim s' := by
  obtain ⟨t, ht, hc⟩ := stepTask_cases net k s s' h
  have hmem : t ∈ s.tasks := List.getElem?_mem ht
  have hwf := hi.wf t hmem
  rcases hc with ⟨post, err, hpc, hf, rfl⟩ | ⟨post, hpc, hf, rfl⟩ |
    ⟨post, err, hpc, hm, rfl⟩ | ⟨post, hpc, hm, rfl⟩ | ⟨hpc, rfl⟩
  · refine inv_taskInternal net lim s k t _ hi ht ?_ ?_ ?_ ?_
    · simpa [Task.wf] using hf
    · simp [hpc]
    · simp
    · simp [Task.sent, hpc]
  · refine inv_taskInternal net lim s k t _ hi ht ?_ ?_ ?_ ?_
    · simp [Task.wf, hf]
    · simp [hpc]
    · simp
    · simp [Task.sent, hpc, taskMessages_ok net t.id post hf]
  · refine inv_taskSend net lim s k t _ (.err { ID := t.id, Err := err }) hi ht ?_ ?_ ?_ hm ?_
    · simp only [Task.wf, hpc] at hwf
      simp [Task.wf, hwf]
    · simp [hpc]
    · simp
    · simp only [Task.wf, hpc] at hwf
      simp [Task.sent, hpc, taskMessages_fail net t.id post err hwf]
  · refine inv_taskSend net lim s k t _ (.post post) hi ht ?_ ?_ ?_ hm ?_
    · simp [Task.wf]
    · simp [hpc]
    · simp
    · simp only [Task.wf, hpc] at hwf
      rcases hf : fetchPost net t.id with ⟨p, _ | e⟩
      · rw [hf] at hwf
        simp only at hwf
        subst hwf
        simp [Task.sent, hpc, taskMessages_ok net t.id p hf]
      · rw [hf] at hwf
        simp only at hwf
        subst hwf
        simp [Task.sent, hpc, taskMessages_fail net t.id p e hf]
  · have hsp : s.mainPc.spawning ≠ true := by
      intro hc
      have := hi.spawn_sent hc t hmem
      rcases hf : fetchPost net t.id with ⟨p, _ | e⟩
      · simp [Task.sent, hpc, taskMessages_ok net t.id p hf] at this
      · simp [Task.sent, hpc, taskMessages_fail net t.id p e hf] at this
    constructor
    · intro x hx
      rcases mem_set_cases _ _ _ _ hx with rfl | hx
      · simp [Task.wf]
      · exact hi.wf x hx
    · have := countP_set_add (fun t => decide (t.pc ≠ TaskPc.finished)) s.tasks k t
        { t with pc := .finished } ht
      simp only [hpc, ne_eq, reduceCtorEq, not_false_eq_true, decide_True, if_true,
        not_true_eq_false, decide_False, Bool.false_eq_true, if_false, Nat.add_zero] at this
      have h2 := hi.wg_eq
      simp only [ne_eq] at h2 ⊢
      omega
    · intro hc; exact absurd hc hsp
    · intro hc; exact absurd hc hsp
    · intro hc; exact absurd hc hsp
    · intro hw
      have := hi.watcher_done hw t hmem
      rw [hpc] at this
      cases this
    · exact hi.closed
    · exact hi.returned
    · have hp := flatMap_set_perm (Task.sent net) s.tasks k t { t with pc := .finished } [] ht
        (by simp [Task.sent, hpc])
      simp only [List.append_nil] at hp
      exact hi.posts.trans (hp.filterMap _).symm
    · have hp := flatMap_set_perm (Task.sent net) s.tasks k t { t with pc := .finished } [] ht
        (by simp [Task.sent, hpc])
      simp only [List.append_nil] at hp
      exact hi.errs.trans (hp.filterMap _).symm
    · exact hi.counts

theorem inv_step (net : Fetcher) (lim elapsed : Int) (s s' : State) (a : Action)
    (hi : Inv net lim s) (h : step net lim elapsed s a = some s') : Inv net lim s' := by
  cases a with
  | main => exact inv_stepMain net lim elapsed s s' hi h
  | task k => exact inv_stepTask net lim k s s' hi h
  | watcher => exact inv_stepWatcher net lim s s' hi h

/-- A property that holds at the start and is kept by every step holds at
the end of every schedule. -/
theorem exec_invariant (net : Fetcher) (lim elapsed : Int) (P : State → Prop)
    (hstep : ∀ s s' a, P s → step net lim elapsed s a = some s' → P s') :
    ∀ (sched : List Action) (s s' : State), P s →
      exec net lim elapsed s sched = some s' → P s' := by
  intro sched
  induction sched with
  | nil =>
    intro s s' hp h
    simp only [exec, Option.some.injEq] at h
    exact h ▸ hp
  | cons a as ih =>
    intro s s' hp h
    unfold exec at h
    cases hs : step net lim elapsed s a with
    | none => rw [hs] at h; simp at h
    | some s1 =>
      rw [hs] at h
      exact ih s1 s' (hstep s s1 a hp hs) h

theorem inv_exec (net : Fetcher) (lim elapsed : Int) (sched : List Action) (s : State)
    (h : exec net lim elapsed State.init sched = some s) : Inv net lim s :=
  exec_invariant net lim elapsed (Inv net lim)
    (fun s s' a hp hs => inv_step net lim elapsed s s' a hp hs) sched State.init s
    (inv_init net lim) h

/-! ## The goroutines started are those of the ids `1..limit` -/

theorem idsInv_init (lim : Int) : IdsInv lim State.init where
  loop := by
    intro i hi
    simp only [State.init, MainPc.atLoop.injEq] at hi
    exact ⟨0, by omega, Nat.zero_le _, by simp [State.init, ids], by simp [State.init]⟩
  past := by
    intro h
    exact absurd rfl (h 1)

theorem idsInv_stepMain (lim elapsed : Int) (hlim : lim < maxInt) (s s' : State)
    (hi : IdsInv lim s) (h : stepMain lim elapsed s = some s') : IdsInv lim s' := by
  unfold stepMain at h
  cases hpc : s.mainPc with
  | atLoop i =>
    rw [hpc] at h
    dsimp only at h
    obtain ⟨k, hk, hkl, hids, hcount⟩ := hi.loop i hpc
    by_cases hle : i ≤ lim
    · rw [if_pos hle] at h
      simp only [Option.some.injEq] at h
      subst h
      have h0 : 0 ≤ lim := by omega
      have htn := Int.toNat_of_nonneg h0
      have hmax : maxInt = 2 ^ 63 - 1 := rfl
      constructor
      · intro j hj
        simp only [MainPc.atLoop.injEq] at hj
        refine ⟨k + 1, ?_, by omega, ?_, ?_⟩
        · rw [← hj, wrapInt_of_inRange _ (by unfold minInt; omega) (by omega)]
          push_cast; omega
        · simp only [List.map_append, List.map_cons, List.map_nil, hids, ids_succ, hk]
        · show wrapInt (s.count + 1) = ((k + 1 : Nat) : Int)
          rw [wrapInt_of_inRange _ (by unfold minInt; omega) (by omega)]
          push_cast; omega
      · intro hc
        exact absurd rfl (hc _)
    · rw [if_neg hle] at h
      simp only [Option.some.injEq] at h
      subst h
      have hkn : k = lim.toNat := by omega
      constructor
      · intro j hj; simp at hj
      · intro _
        exact ⟨by rw [← hkn]; exact hids, by rw [← hkn]; exact hcount⟩
  | atWatcherStart =>
    rw [hpc] at h
    simp only [Option.some.injEq] at h
    subst h
    have hp := hi.past (by intro i; rw [hpc]; simp)
    exact ⟨by intro j hj; simp at hj, fun _ => hp⟩
  | atSelect =>
    rw [hpc] at h
    have hp := hi.past (by intro i; rw [hpc]; simp)
    by_cases hd : s.doneClosed = true
    · rw [if_pos hd] at h
      simp only [Option.some.injEq] at h
      subst h
      exact ⟨by intro j hj; simp at hj, fun _ => hp⟩
    · simp [hd] at h
  | atPostCase post =>
    rw [hpc] at h
    simp only [Option.some.injEq] at h
    subst h
    have hp := hi.past (by intro i; rw [hpc]; simp)
    exact ⟨by intro j hj; simp at hj, fun _ => hp⟩
  | atErrCase err =>
    rw [hpc] at h
    simp only [Option.some.injEq] at h
    subst h
    have hp := hi.past (by intro i; rw [hpc]; simp)
    exact ⟨by intro j hj; simp at hj, fun _ => hp⟩
  | returned =>
    rw [hpc] at h
    simp at h

theorem idsInv_stepTask (net : Fetcher) (lim : Int) (k : Nat) (s s' : State)
    (hi : IdsInv lim s) (h : stepTask net k s = some s') : IdsInv lim s' := by
  obtain ⟨t, ht, hc⟩ := stepTask_cases net k s s' h
  have hmap : ∀ pc : TaskPc, (s.tasks.set k { t with pc := pc }).map (fun t => t.id) =
      s.tasks.map (fun t => t.id) :=
    fun pc => map_set_same (fun x : Task => x.id) s.tasks k t { t with pc := pc } ht rfl
  rcases hc with ⟨post, err, _, _, rfl⟩ | ⟨post, _, _, rfl⟩ |
    ⟨post, err, _, hm, rfl⟩ | ⟨post, _, hm, rfl⟩ | ⟨_, rfl⟩
  · exact ⟨fun i hpc => by simpa [hmap] using hi.loop i hpc,
      fun hpc => by simpa [hmap] using hi.past hpc⟩
  · exact ⟨fun i hpc => by simpa [hmap] using hi.loop i hpc,
      fun hpc => by simpa [hmap] using hi.past hpc⟩
  · have hp := hi.past (by intro i; rw [hm]; simp)
    exact ⟨by intro j hj; simp at hj, fun _ => by simpa [hmap] using hp⟩
  · have hp := hi.past (by intro i; rw [hm]; simp)
    exact ⟨by intro j hj; simp at hj, fun _ => by simpa [hmap] using hp⟩
  · exact ⟨fun i hpc => by simpa [hmap] using hi.loop i hpc,
      fun hpc => by simpa [hmap] using hi.past hpc⟩

theorem idsInv_stepWatcher (lim : Int) (s s' : State)
    (hi : IdsInv lim s) (h : stepWatcher lim s = some s') : IdsInv lim s' := by
  unfold stepWatcher at h
  cases hw : s.watcher with
  | notStarted => rw [hw] at h; simp at h
  | atWait =>
    rw [hw] at h
    by_cases h0 : s.wg = 0
    · rw [if_pos h0] at h
      simp only [Option.some.injEq] at h
      subst h
      exact ⟨hi.loop, hi.past⟩
    · simp [h0] at h
  | atCheck =>
    rw [hw] at h
    simp only [Option.some.injEq] at h
    subst h
    exact ⟨hi.loop, hi.past⟩
  | finished => rw [hw] at h; simp at h

theorem idsInv_exec (net : Fetcher) (lim elapsed : Int) (hlim : lim < maxInt)
    (sched : List Action) (s : State)
    (h : exec net lim elapsed State.init sched = some s) : IdsInv lim s := by
  refine exec_invariant net lim elapsed (IdsInv lim) ?_ sched State.init s (idsInv_init lim) h
  intro s s' a hp hs
  cases a with
  | main => exact idsInv_stepMain lim elapsed hlim s s' hp hs
  | task k => exact idsInv_stepTask net lim k s s' hp hs
  | watcher => exact idsInv_stepWatcher lim s s' hp hs

/-! ## The state in which `doneChan` is closed -/

theorem sent_finished (net : Fetcher) (tasks : List Task)
    (h : ∀ t ∈ tasks, t.pc = TaskPc.finished) :
    tasks.flatMap (Task.sent net) = (tasks.map (fun t => t.id)).flatMap (taskMessages net) := by
  induction tasks with
  | nil => rfl
  | cons t ts ih =>
    have ht := h t (List.mem_cons_self _ _)
    have hts := ih (fun x hx => h x (List.mem_cons_of_mem _ hx))
    simp only [List.flatMap_cons, List.map_cons, hts]
    simp [Task.sent, ht]

/-- Once `doneChan` is closed, every goroutine has finished and every
message of every goroutine is in `Result` or in the case body under way. -/
theorem closed_all_merged (net : Fetcher) (lim elapsed : Int) (sched : List Action)
    (s : State) (h : exec net lim elapsed State.init sched = some s)
    (hd : s.doneClosed = true) :
    (∀ t ∈ s.tasks, t.pc = TaskPc.finished) ∧
    (s.result.SuccessIDs ++ postIDs s.mainPc.pending).Perm
      ((s.tasks.map (fun t => t.id)).map (fun id => (fetchPost net id).1.ID)) ∧
    (s.result.FailIDs ++ errIDs s.mainPc.pending).Perm
      ((s.tasks.map (fun t => t.id)).filter (fails net)) := by
  have hi := inv_exec net lim elapsed sched s h
  have hall := hi.watcher_done (Or.inr (hi.closed hd).1)
  have hs := sent_finished net s.tasks hall
  refine ⟨hall, ?_, ?_⟩
  · have := hi.posts
    rwa [hs, postIDs_flatMap] at this
  · have := hi.errs
    rwa [hs, errIDs_flatMap] at this

/-- Once `doneChan` is closed, the goroutines are those of the ids
`1..limit`, and `limit` is not negative. -/
theorem closed_ids (net : Fetcher) (lim elapsed : Int) (hlim : lim < maxInt)
    (sched : List Action) (s : State)
    (h : exec net lim elapsed State.init sched = some s) (hd : s.doneClosed = true) :
    0 ≤ lim ∧ s.tasks.map (fun t => t.id) = ids lim.toNat := by
  have hi := inv_exec net lim elapsed sched s h
  have hids := idsInv_exec net lim elapsed hlim sched s h
  have hw := (hi.closed hd).1
  have hcount := (hi.closed hd).2
  have hpast : ∀ i, s.mainPc ≠ .atLoop i := by
    intro i hc
    have := hi.spawn_watcher (by rw [hc]; rfl)
    rw [hw] at this
    cases this
  obtain ⟨h1, h2⟩ := hids.past hpast
  exact ⟨by omega, h1⟩

/-! ## Finished runs of `withConcurrent` -/

theorem withConcurrent_some (net : Fetcher) (lim elapsed : Int) (sched : List Action)
    (r : Result) (h : withConcurrent net lim elapsed sched = some r) :
    ∃ s, exec net lim elapsed State.init sched = some s ∧ s.mainPc = .returned ∧
      s.result = r := by
  unfold withConcurrent at h
  cases hs : exec net lim elapsed State.init sched with
  | none => rw [hs] at h; simp at h
  | some s =>
    rw [hs] at h
    dsimp only at h
    by_cases hr : s.mainPc = .returned
    · rw [if_pos hr] at h
      exact ⟨s, rfl, hr, by simpa using h⟩
    · rw [if_neg hr] at h
      simp at h

/-- The `Result` of a finished run: one entry in `SuccessIDs` for every id
(the `ID` of the post that `fetchPost` returned for it, which is that of
`Post{}` when the fetch failed), and the failed ids in `FailIDs`. -/
theorem withConcurrent_result (net : Fetcher) (lim elapsed : Int) (hlim : lim < maxInt)
    (sched : List Action) (r : Result)
    (h : withConcurrent net lim elapsed sched = some r) :
    0 ≤ lim ∧
    r.SuccessIDs.Perm ((ids lim.toNat).map (fun id => (fetchPost net id).1.ID)) ∧
    r.FailIDs.Perm ((ids lim.toNat).filter (fails net)) ∧
    r.countsMatch := by
  obtain ⟨s, hs, hret, rfl⟩ := withConcurrent_some net lim elapsed sched r h
  have hi := inv_exec net lim elapsed sched s hs
  have hd := hi.returned hret
  obtain ⟨_, hp, he⟩ := closed_all_merged net lim elapsed sched s hs hd
  obtain ⟨h0, hids⟩ := closed_ids net lim elapsed hlim sched s hs hd
  rw [hret, hids] at hp he
  simp only [MainPc.pending, postIDs, errIDs, List.filterMap_nil, List.append_nil] at hp he
  exact ⟨h0, hp, he, hi.counts⟩

theorem filter_fails_card (net : Fetcher) (n : Nat) (F : Finset Int)
    (hsub : F ⊆ Finset.Icc 1 (n : Int)) (hF : ∀ i : Int, fails net i = true ↔ i ∈ F) :
    ((ids n).filter (fails net)).length = F.card := by
  have hfail : (ids n).filter (fails net) = F.sort (· ≤ ·) := by
    refine sorted_eq_sort _ F ((ids_sorted n).filter _) (fun x => ?_)
    rw [List.mem_filter, mem_ids, hF]
    constructor
    · exact fun hx => hx.2
    · intro hx
      exact ⟨Finset.mem_Icc.mp (hsub hx), hx⟩
  rw [hfail, Finset.length_sort]

/-! ## A run of `withConcurrent` that reaches the `return` -/

theorem exec_append (net : Fetcher) (lim elapsed : Int) :
    ∀ (a b : List Action) (s s1 : State), exec net lim elapsed s a = some s1 →
      exec net lim elapsed s (a ++ b) = exec net lim elapsed s1 b := by
  intro a
  induction a with
  | nil =>
    intro b s s1 h
    simp only [exec, Option.some.injEq] at h
    subst h
    rfl
  | cons x xs ih =>
    intro b s s1 h
    simp only [List.cons_append, exec] at h ⊢
    cases hst : step net lim elapsed s x with
    | none => rw [hst] at h; simp at h
    | some s2 =>
      rw [hst] at h
      exact ih b s2 s1 h

theorem getElem?_mid {α : Type} (pre post : List α) (t : α) :
    (pre ++ t :: post)[pre.length]? = some t := by
  rw [List.getElem?_append_right (Nat.le_refl _)]
  simp

theorem set_mid {α : Type} (pre post : List α) (t t' : α) :
    (pre ++ t :: post).set pre.length t' = pre ++ t' :: post := by
  rw [List.set_append_right _ _ (Nat.le_refl _)]
  simp

theorem exec_spawn (net : Fetcher) (n : Nat) (elapsed : Int) (hn : (n : Int) < maxInt) :
    ∀ k : Nat, k ≤ n →
      exec net n elapsed State.init (List.replicate k Action.main) = some (spawnState k) := by
  intro k
  induction k with
  | zero =>
    intro _
    simp [exec, spawnState, State.init, ids]
  | succ k ih =>
    intro hk
    rw [List.replicate_succ', exec_append net n elapsed _ _ _ _ (ih (by omega))]
    have hle : (k : Int) + 1 ≤ n := by omega
    have hmax : maxInt = 2 ^ 63 - 1 := rfl
    have hw : wrapInt ((k : Int) + 1 + 1) = ((k + 1 : Nat) : Int) + 1 := by
      rw [wrapInt_of_inRange _ (by unfold minInt; omega) (by omega)]
      push_cast; ring
    have hc : wrapInt ((k : Int) + 1) = ((k + 1 : Nat) : Int) := by
      rw [wrapInt_of_inRange _ (by unfold minInt; omega) (by omega)]
      push_cast; ring
    simp only [exec, step, stepMain, spawnState, if_pos hle, hw, hc, ids_succ,
      List.map_append, List.map_cons, List.map_nil]
    push_cast
    rfl

theorem exec_to_select (net : Fetcher) (n : Nat) (elapsed : Int) (hn : (n : Int) < maxInt) :
    exec net n elapsed State.init (List.replicate (n + 2) Action.main) =
      some (midState n [] (ids n) Result.init) := by
  have h : List.replicate (n + 2) Action.main =
      List.replicate n Action.main ++ [Action.main, Action.main] := by
    rw [List.replicate_add]
    rfl
  rw [h, exec_append net n elapsed _ _ _ _ (exec_spawn net n elapsed hn n (Nat.le_refl n))]
  have hle : ¬ ((n : Int) + 1 ≤ n) := by omega
  simp [exec, step, stepMain, spawnState, hle, midState, ids_length]

theorem exec_task (net : Fetcher) (n : Nat) (lim elapsed : Int) (done todo : List Int)
    (id : Int) (r : Result) :
    ∃ r', exec net lim elapsed (midState n done (id :: todo) r)
        (taskSchedule net id done.length) =
      some (midState n (done ++ [id]) todo r') := by
  have hlen : done.length =
      (done.map (fun i => ({ id := i, pc := .finished } : Task))).length := by simp
  have hget : ∀ (t : Task) (post : List Task),
      (done.map (fun i => ({ id := i, pc := .finished } : Task)) ++ t :: post)[done.length]? =
        some t := by
    intro t post
    conv => lhs; rw [hlen]
    exact getElem?_mid _ _ _
  have hset : ∀ (t t' : Task) (post : List Task),
      (done.map (fun i => ({ id := i, pc := .finished } : Task)) ++ t :: post).set
        done.length t' =
        done.map (fun i => ({ id := i, pc := .finished } : Task)) ++ t' :: post := by
    intro t t' post
    conv => lhs; rw [hlen]
    exact set_mid _ _ _ _
  have hwg : ((todo.length + 1 : Nat) : Int) - 1 = (todo.length : Int) := by
    push_cast; ring
  rcases hf : fetchPost net id with ⟨post, _ | e⟩
  · refine ⟨r.mergePost post, ?_⟩
    have hfl : fails net id = false := by simp [fails, hf]
    simp [taskSchedule, hfl, exec, step, stepTask, stepMain, midState, hget, hset, Task.next,
      hf, MainPc.receive, hwg]
  · refine ⟨(r.mergeErr { ID := id, Err := e }).mergePost post, ?_⟩
    have hfl : fails net id = true := by simp [fails, hf]
    simp [taskSchedule, hfl, exec, step, stepTask, stepMain, midState, hget, hset, Task.next,
      hf, MainPc.receive, hwg]

theorem exec_tasks (net : Fetcher) (n : Nat) (lim elapsed : Int) :
    ∀ (todo done : List Int) (r : Result),
      ∃ r', exec net lim elapsed (midState n done todo r)
          (tasksSchedule net done.length todo) =
        some (midState n (done ++ todo) [] r') := by
  intro todo
  induction todo with
  | nil =>
    intro done r
    exact ⟨r, by simp [tasksSchedule, exec]⟩
  | cons id rest ih =>
    intro done r
    obtain ⟨r1, h1⟩ := exec_task net n lim elapsed done rest id r
    obtain ⟨r2, h2⟩ := ih (done ++ [id]) r1
    refine ⟨r2, ?_⟩
    simp only [tasksSchedule]
    rw [exec_append net lim elapsed _ _ _ _ h1]
    simpa using h2

/-- For every `limit` from 0 up to the largest `int` less one, and every
fetcher, some schedule takes `withConcurrent` to its `return`. -/
theorem withConcurrent_finishes (net : Fetcher) (n : Nat) (elapsed : Int)
    (hn : (n : Int) < maxInt) :
    ∃ r, withConcurrent net n elapsed (fullSchedule net n) = some r := by
  obtain ⟨r, hr⟩ := exec_tasks net n n elapsed (ids n) [] Result.init
  refine ⟨{ r with TotalDuration := elapsed }, ?_⟩
  unfold withConcurrent fullSchedule
  rw [exec_append net n elapsed _ _ _ _ (exec_to_select net n elapsed hn)]
  simp only [List.length_nil] at hr
  rw [exec_append net n elapsed _ _ _ _ hr]
  simp [exec, step, stepWatcher, stepMain, midState]

/-! ## Claims on the sequential runner -/

/-- C1: for every `N ≥ 0` and every fetcher, a run of `withoutConcurrent`
that finishes its loop has `Success + Fail = N`, and `SuccessIDs` together
with `FailIDs` hold every id of `1..N` exactly once and no other value; for
`N` below the largest `int` the run finishes, within `N + 1` iterations. -/
theorem withoutConcurrent_partition (net : Fetcher) (N elapsed : Int)
    (h0 : 0 ≤ N) (hN : N ≤ maxInt) :
    (∀ (fuel : Nat) (r : Result), withoutConcurrent net N elapsed fuel = some r →
      r.Success + r.Fail = N ∧
      ∀ x : Int, (r.SuccessIDs ++ r.FailIDs).count x = if 1 ≤ x ∧ x ≤ N then 1 else 0) ∧
    (N < maxInt → ∃ r, withoutConcurrent net N elapsed (N.toNat + 1) = some r) := by
  refine ⟨?_, fun hlt => ⟨_, withoutConcurrent_finishes net N elapsed h0 hlt⟩⟩
  intro fuel r h
  have hr := withoutConcurrent_some net N elapsed fuel r h0 hN h
  subst hr
  obtain ⟨n, rfl⟩ := Int.eq_ofNat_of_zero_le h0
  refine ⟨by simpa using seqAfter_sum net n, fun x => ?_⟩
  have hp := (seqAfter_perm net n).count_eq x
  simp only [Int.toNat_ofNat] at hp ⊢
  rw [hp, List.count_eq_of_nodup (ids_nodup n)]
  simp only [mem_ids]

theorem withoutConcurrent_partition_witness :
    (0 : Int) ≤ 3 ∧ (3 : Int) ≤ maxInt ∧
    ((∀ (fuel : Nat) (r : Result), withoutConcurrent (stubFetcher [2]) 3 0 fuel = some r →
      r.Success + r.Fail = 3 ∧
      ∀ x : Int, (r.SuccessIDs ++ r.FailIDs).count x = if 1 ≤ x ∧ x ≤ 3 then 1 else 0) ∧
    ((3 : Int) < maxInt →
      ∃ r, withoutConcurrent (stubFetcher [2]) 3 0 ((3 : Int).toNat + 1) = some r)) :=
  ⟨by decide, by decide,
    withoutConcurrent_partition (stubFetcher [2]) 3 0 (by decide) (by decide)⟩

/-- C2: when the fetcher fails exactly for the ids of a set `F` of ids in
`1..N`, a finished run of `withoutConcurrent` has `Fail = |F|`,
`Success = N - |F|`, `FailIDs` the ascending list of `F` and `SuccessIDs`
the ascending list of `{1..N} \ F`; for `N` below the largest `int` the run
finishes. -/
theorem withoutConcurrent_fault_injection (net : Fetcher) (N elapsed : Int) (F : Finset Int)
    (h0 : 0 ≤ N) (hN : N ≤ maxInt) (hsub : F ⊆ Finset.Icc 1 N)
    (hF : ∀ i : Int, fails net i = true ↔ i ∈ F) :
    (∀ (fuel : Nat) (r : Result), withoutConcurrent net N elapsed fuel = some r →
      r.Fail = F.card ∧ r.Success = N - F.card ∧
      r.FailIDs = F.sort (· ≤ ·) ∧
      r.SuccessIDs = (Finset.Icc 1 N \ F).sort (· ≤ ·)) ∧
    (N < maxInt → ∃ r, withoutConcurrent net N elapsed (N.toNat + 1) = some r) := by
  refine ⟨?_, fun hlt => ⟨_, withoutConcurrent_finishes net N elapsed h0 hlt⟩⟩
  intro fuel r h
  have hr := withoutConcurrent_some net N elapsed fuel r h0 hN h
  subst hr
  obtain ⟨n, rfl⟩ := Int.eq_ofNat_of_zero_le h0
  have hfail : (ids n).filter (fails net) = F.sort (· ≤ ·) := by
    refine sorted_eq_sort _ F ((ids_sorted n).filter _) (fun x => ?_)
    rw [List.mem_filter, mem_ids, hF]
    constructor
    · exact fun hx => hx.2
    · intro hx
      have := Finset.mem_Icc.mp (hsub hx)
      exact ⟨this, hx⟩
  have hsucc : (ids n).filter (fun i => !fails net i) =
      (Finset.Icc (1 : Int) n \ F).sort (· ≤ ·) := by
    refine sorted_eq_sort _ _ ((ids_sorted n).filter _) (fun x => ?_)
    rw [List.mem_filter, mem_ids, Finset.mem_sdiff, Finset.mem_Icc, ← hF]
    simp
  have hlen : (((ids n).filter (fails net)).length : Int) = F.card := by
    rw [hfail, Finset.length_sort]
  have hsum := seqAfter_sum net n
  simp only [seqAfter, Int.toNat_ofNat] at hsum ⊢
  refine ⟨hlen, by omega, hfail, hsucc⟩

theorem withoutConcurrent_fault_injection_witness :
    (0 : Int) ≤ 3 ∧ (3 : Int) ≤ maxInt ∧ ({2} : Finset Int) ⊆ Finset.Icc 1 3 ∧
    (∀ i : Int, fails (stubFetcher [2]) i = true ↔ i ∈ ({2} : Finset Int)) ∧
    withoutConcurrent (stubFetcher [2]) 3 0 4 =
      some { Success := 2, Fail := 1, TotalDuration := 0,
             SuccessIDs := [1, 3], FailIDs := [2] } ∧
    ((∀ (fuel : Nat) (r : Result), withoutConcurrent (stubFetcher [2]) 3 0 fuel = some r →
      r.Fail = (({2} : Finset Int).card : Int) ∧
      r.Success = 3 - (({2} : Finset Int).card : Int) ∧
      r.FailIDs = ({2} : Finset Int).sort (· ≤ ·) ∧
      r.SuccessIDs = (Finset.Icc 1 3 \ ({2} : Finset Int)).sort (· ≤ ·)) ∧
    ((3 : Int) < maxInt →
      ∃ r, withoutConcurrent (stubFetcher [2]) 3 0 ((3 : Int).toNat + 1) = some r)) :=
  have hF : ∀ i : Int, fails (stubFetcher [2]) i = true ↔ i ∈ ({2} : Finset Int) := by
    intro i
    by_cases h : i = 2 <;> simp [fails, fetchPost, stubFetcher, h]
  ⟨by decide, by decide, by decide, hF, by decide,
    withoutConcurrent_fault_injection (stubFetcher [2]) 3 0 {2} (by decide) (by decide)
      (by decide) hF⟩

/-- C6: for every `N ≥ 0` and every fetcher, the lists `SuccessIDs` and
`FailIDs` of a finished run of `withoutConcurrent` are strictly ascending;
for `N` below the largest `int` the run finishes. -/
theorem withoutConcurrent_ascending (net : Fetcher) (N elapsed : Int)
    (h0 : 0 ≤ N) (hN : N ≤ maxInt) :
    (∀ (fuel : Nat) (r : Result), withoutConcurrent net N elapsed fuel = some r →
      r.SuccessIDs.Sorted (· < ·) ∧ r.FailIDs.Sorted (· < ·)) ∧
    (N < maxInt → ∃ r, withoutConcurrent net N elapsed (N.toNat + 1) = some r) := by
  refine ⟨?_, fun hlt => ⟨_, withoutConcurrent_finishes net N elapsed h0 hlt⟩⟩
  intro fuel r h
  have hr := withoutConcurrent_some net N elapsed fuel r h0 hN h
  subst hr
  exact ⟨(ids_sorted _).filter _, (ids_sorted _).filter _⟩

theorem withoutConcurrent_ascending_witness :
    (0 : Int) ≤ 3 ∧ (3 : Int) ≤ maxInt ∧
    ((∀ (fuel : Nat) (r : Result), withoutConcurrent (stubFetcher [2]) 3 0 fuel = some r →
      r.SuccessIDs.Sorted (· < ·) ∧ r.FailIDs.Sorted (· < ·)) ∧
    ((3 : Int) < maxInt →
      ∃ r, withoutConcurrent (stubFetcher [2]) 3 0 ((3 : Int).toNat + 1) = some r)) :=
  ⟨by decide, by decide,
    withoutConcurrent_ascending (stubFetcher [2]) 3 0 (by decide) (by decide)⟩

/-! ## Claims on `main` -/

/-- C7: with only the program name in the argument vector, `main` prints
nothing and ends in an index-out-of-range panic at `args[1]`; the message
"arguments are missing" is printed only for an empty first argument. -/
theorem main_without_mode_argument (prog : String) (rest : List String) :
    main [prog] = ([], Exit.indexOutOfRange 1 1) ∧
    main (prog :: "" :: rest) = ([Effect.println "arguments are missing"], Exit.returned) := by
  constructor
  · rfl
  · simp [main]

/-- C8: for a non-empty first argument `a`, `main` runs the sequential
runner alone when `a` is `--without-concurrent`, the concurrent runner alone
when `a` is `--with-concurrent`, and otherwise has no effect at all; it never
runs both runners, and it returns. -/
theorem main_selects_runner (prog a : String) (rest : List String) (ha : a ≠ "") :
    (a = "--without-concurrent" →
      main (prog :: a :: rest) = ([Effect.runWithoutConcurrent], Exit.returned)) ∧
    (a = "--with-concurrent" →
      main (prog :: a :: rest) = ([Effect.runWithConcurrent], Exit.returned)) ∧
    (a ≠ "--without-concurrent" → a ≠ "--with-concurrent" →
      main (prog :: a :: rest) = ([], Exit.returned)) ∧
    ¬ (Effect.runWithoutConcurrent ∈ (main (prog :: a :: rest)).1 ∧
       Effect.runWithConcurrent ∈ (main (prog :: a :: rest)).1) := by
  have hm : main (prog :: a :: rest) =
      if a = "--without-concurrent" then ([Effect.runWithoutConcurrent], Exit.returned)
      else if a = "--with-concurrent" then ([Effect.runWithConcurrent], Exit.returned)
      else ([], Exit.returned) := by
    simp [main, ha]
  refine ⟨?_, ?_, ?_, ?_⟩
  · intro h; rw [hm, if_pos h]
  · intro h
    have h' : a ≠ "--without-concurrent" := by rw [h]; decide
    rw [hm, if_neg h', if_pos h]
  · intro h1 h2; rw [hm, if_neg h1, if_neg h2]
  · rw [hm]
    split_ifs <;> simp

theorem main_selects_runner_witness :
    "--with-concurrent" ≠ "" ∧
    main ["demo", "--with-concurrent"] = ([Effect.runWithConcurrent], Exit.returned) :=
  ⟨by decide,
    (main_selects_runner "demo" "--with-concurrent" [] (by decide)).2.1 rfl⟩

/-! ## Claims on the concurrent runner -/

/-- C3: with `limit = 3` and a fetcher that fails only for id 2, a complete
run of `withConcurrent` (every goroutine has sent all its messages and
finished, `doneChan` is closed, the `select` takes the `doneChan` case) ends
with `Success = 3`, `Fail = 1`, `SuccessIDs = [1, 3, 0]` and `FailIDs = [2]`:
the goroutine of the failed id also sent `Post{}` on `postChan`. -/
theorem withConcurrent_counts_failed_fetch_as_success :
    withConcurrent (stubFetcher [2]) 3 0 (demoSchedule ++ [.main]) =
      some { Success := 3, Fail := 1, TotalDuration := 0,
             SuccessIDs := [1, 3, 0], FailIDs := [2] } := by
  decide

/-- C4: the goroutine started for id 2, whose fetch fails, sends two
messages: the `ErrorPost` for id 2 on `errChan` and then `Post{}` on
`postChan`. -/
theorem failed_task_sends_two_messages :
    taskMessages (stubFetcher [2]) 2 =
      [.err { ID := 2, Err := "stub failure" }, .post Post.zero] ∧
    (taskMessages (stubFetcher [2]) 2).length = 2 := by
  decide

/-- C5: in every run of `withConcurrent`, whenever the main goroutine is
blocked in the `select` and `doneChan` is closed (the only state in which
the `doneChan` case can be taken), every fetch goroutine has finished, no
received message is waiting to be merged, and `Result` holds the ids of all
messages that the goroutines send; the `doneChan` case then leads to the
`return` with these lists.  For a limit below the largest `int` the
goroutines are those of the ids `1..limit`. -/
theorem done_only_after_all_merged (net : Fetcher) (lim elapsed : Int)
    (sched : List Action) (s : State)
    (h : exec net lim elapsed State.init sched = some s)
    (hsel : s.mainPc = .atSelect) (hd : s.doneClosed = true) :
    (∀ t ∈ s.tasks, t.pc = TaskPc.finished) ∧
    s.mainPc.pending = [] ∧
    s.result.SuccessIDs.Perm
      (postIDs ((s.tasks.map (fun t => t.id)).flatMap (taskMessages net))) ∧
    s.result.FailIDs.Perm
      (errIDs ((s.tasks.map (fun t => t.id)).flatMap (taskMessages net))) ∧
    withConcurrent net lim elapsed (sched ++ [.main]) =
      some { s.result with TotalDuration := elapsed } ∧
    (lim < maxInt → 0 ≤ lim ∧ s.tasks.map (fun t => t.id) = ids lim.toNat) := by
  have hi := inv_exec net lim elapsed sched s h
  have hall := hi.watcher_done (Or.inr (hi.closed hd).1)
  have hs := sent_finished net s.tasks hall
  have hp := hi.posts
  have he := hi.errs
  rw [hs, hsel] at hp he
  simp only [MainPc.pending, postIDs, errIDs, List.filterMap_nil, List.append_nil] at hp he
  refine ⟨hall, by rw [hsel]; rfl, hp, he, ?_,
    fun hlim => closed_ids net lim elapsed hlim sched s h hd⟩
  have hex : ∀ (l : List Action) (s0 : State), exec net lim elapsed s0 l = some s →
      exec net lim elapsed s0 (l ++ [.main]) =
        some { s with
          result := { s.result with TotalDuration := elapsed }
          mainPc := .returned } := by
    intro l
    induction l with
    | nil =>
      intro s0 h0
      simp only [exec, Option.some.injEq] at h0
      subst h0
      simp [exec, step, stepMain, hsel, hd]
    | cons a as ih =>
      intro s0 h0
      simp only [List.cons_append, exec] at h0 ⊢
      cases hst : step net lim elapsed s0 a with
      | none => rw [hst] at h0; simp at h0
      | some s1 =>
        rw [hst] at h0
        simpa using ih s1 h0
  simp [withConcurrent, hex sched State.init h]

theorem done_only_after_all_merged_witness :
    exec (stubFetcher [2]) 3 0 State.init demoSchedule = some demoState ∧
    demoState.mainPc = .atSelect ∧ demoState.doneClosed = true ∧
    (∀ t ∈ demoState.tasks, t.pc = TaskPc.finished) ∧
    demoState.mainPc.pending = [] ∧
    demoState.result.SuccessIDs.Perm
      (postIDs ((demoState.tasks.map (fun t => t.id)).flatMap
        (taskMessages (stubFetcher [2])))) ∧
    demoState.result.FailIDs.Perm
      (errIDs ((demoState.tasks.map (fun t => t.id)).flatMap
        (taskMessages (stubFetcher [2])))) ∧
    withConcurrent (stubFetcher [2]) 3 0 (demoSchedule ++ [.main]) =
      some { demoState.result with TotalDuration := 0 } ∧
    ((3 : Int) < maxInt →
      (0 : Int) ≤ 3 ∧ demoState.tasks.map (fun t => t.id) = ids (3 : Int).toNat) :=
  ⟨by decide, rfl, rfl,
    done_only_after_all_merged (stubFetcher [2]) 3 0 demoSchedule demoState
      (by decide) rfl rfl⟩

/-- C9: when the fetcher fails exactly for the ids of a set `F` of ids in
`1..N`, the goroutine of every id in `F` sends first the `ErrorPost` with
that id on `errChan` and then `Post{}` (with `ID` 0) on `postChan`; merging
the two adds 1 to `Fail` and to `Success`, the id to `FailIDs` and 0 to
`SuccessIDs`; every run of `withConcurrent` that reaches the `return` ends
with `Success = N` and `Fail = |F|`; and some run reaches the `return`. -/
theorem failed_fetch_is_merged_twice (net : Fetcher) (N elapsed : Int) (F : Finset Int)
    (h0 : 0 ≤ N) (hN : N < maxInt) (hsub : F ⊆ Finset.Icc 1 N)
    (hF : ∀ i : Int, fails net i = true ↔ i ∈ F) :
    (∀ id ∈ F, ∃ e, taskMessages net id = [.err { ID := id, Err := e }, .post Post.zero]) ∧
    (∀ (r0 : Result) (id : Int) (e : String),
      (r0.merge (.err { ID := id, Err := e })).merge (.post Post.zero) =
        { r0 with
          Fail := r0.Fail + 1
          FailIDs := r0.FailIDs ++ [id]
          Success := r0.Success + 1
          SuccessIDs := r0.SuccessIDs ++ [0] }) ∧
    (∀ (sched : List Action) (r : Result), withConcurrent net N elapsed sched = some r →
      r.Success = N ∧ r.Fail = F.card) ∧
    (∃ sched r, withConcurrent net N elapsed sched = some r) := by
  refine ⟨?_, ?_, ?_, ?_⟩
  · intro id hid
    have hf := (hF id).mpr hid
    rcases hfp : fetchPost net id with ⟨post, _ | e⟩
    · simp [fails, hfp] at hf
    · have hz := fetchPost_fail_zero net id post e hfp
      subst hz
      exact ⟨e, taskMessages_fail net id _ e hfp⟩
  · intro r0 id e
    rfl
  · intro sched r hrun
    obtain ⟨_, hp, he, hc⟩ := withConcurrent_result net N elapsed hN sched r hrun
    obtain ⟨n, rfl⟩ := Int.eq_ofNat_of_zero_le h0
    have h1 := hp.length_eq
    have h2 := he.length_eq
    simp only [Int.toNat_ofNat, List.length_map, ids_length] at h1 h2
    rw [filter_fails_card net n F hsub hF] at h2
    rw [hc.1, hc.2, h1, h2]
    exact ⟨rfl, rfl⟩
  · obtain ⟨n, rfl⟩ := Int.eq_ofNat_of_zero_le h0
    obtain ⟨r, hr⟩ := withConcurrent_finishes net n elapsed hN
    exact ⟨_, r, hr⟩

theorem failed_fetch_is_merged_twice_witness :
    (0 : Int) ≤ 3 ∧ (3 : Int) < maxInt ∧ ({2} : Finset Int) ⊆ Finset.Icc 1 3 ∧
    (∀ i : Int, fails (stubFetcher [2]) i = true ↔ i ∈ ({2} : Finset Int)) ∧
    withConcurrent (stubFetcher [2]) 3 0 (demoSchedule ++ [.main]) = some demoState.result ∧
    demoState.result.Success = 3 ∧
    demoState.result.Fail = (({2} : Finset Int).card : Int) :=
  have hF : ∀ i : Int, fails (stubFetcher [2]) i = true ↔ i ∈ ({2} : Finset Int) := by
    intro i
    by_cases h : i = 2 <;> simp [fails, fetchPost, stubFetcher, h]
  ⟨by decide, by decide, by decide, hF, by decide,
    (failed_fetch_is_merged_twice (stubFetcher [2]) 3 0 {2} (by decide) (by decide)
      (by decide) hF).2.2.1 (demoSchedule ++ [.main]) demoState.result (by decide)⟩

/-- C10: the initial `Result` has `Success = len(SuccessIDs)` and
`Fail = len(FailIDs)`; every iteration of the sequential loop and every case
body of the `select` keeps both equalities and changes one of the pairs
(counter, list), adding 1 and appending one id, while the other pair stays as
it is; so the equalities hold after any number of iterations or merges, in
the result of `withoutConcurrent`, and in every state of a run of
`withConcurrent`, the final one included. -/
theorem counts_match_lists (net : Fetcher) :
    Result.init.countsMatch ∧
    (∀ (r : Result) (i : Int),
      (r.countsMatch → (withoutConcurrentBody net r i).countsMatch) ∧
      (((withoutConcurrentBody net r i).Success = r.Success ∧
        (withoutConcurrentBody net r i).SuccessIDs = r.SuccessIDs ∧
        (withoutConcurrentBody net r i).Fail = r.Fail + 1 ∧
        (withoutConcurrentBody net r i).FailIDs = r.FailIDs ++ [i]) ∨
       ((withoutConcurrentBody net r i).Fail = r.Fail ∧
        (withoutConcurrentBody net r i).FailIDs = r.FailIDs ∧
        (withoutConcurrentBody net r i).Success = r.Success + 1 ∧
        (withoutConcurrentBody net r i).SuccessIDs = r.SuccessIDs ++ [i]))) ∧
    (∀ (r : Result) (m : Message),
      (r.countsMatch → (r.merge m).countsMatch) ∧
      ((∃ e, m = .err e ∧ (r.merge m).Success = r.Success ∧
        (r.merge m).SuccessIDs = r.SuccessIDs ∧
        (r.merge m).Fail = r.Fail + 1 ∧
        (r.merge m).FailIDs = r.FailIDs ++ [e.ID]) ∨
       (∃ p, m = .post p ∧ (r.merge m).Fail = r.Fail ∧
        (r.merge m).FailIDs = r.FailIDs ∧
        (r.merge m).Success = r.Success + 1 ∧
        (r.merge m).SuccessIDs = r.SuccessIDs ++ [p.ID]))) ∧
    (∀ l : List Int, (l.foldl (withoutConcurrentBody net) Result.init).countsMatch) ∧
    (∀ ms : List Message, (ms.foldl Result.merge Result.init).countsMatch) ∧
    (∀ (lim elapsed : Int) (fuel : Nat) (r : Result),
      withoutConcurrent net lim elapsed fuel = some r → r.countsMatch) ∧
    (∀ (lim elapsed : Int) (sched : List Action) (s : State),
      exec net lim elapsed State.init sched = some s → s.result.countsMatch) := by
  have hinit : Result.init.countsMatch := by simp [Result.init, Result.countsMatch]
  have hbody : ∀ (r : Result) (i : Int),
      r.countsMatch → (withoutConcurrentBody net r i).countsMatch := by
    intro r i hr
    unfold withoutConcurrentBody
    cases (fetchPost net i).2 <;>
      simp only [Result.countsMatch, Result.recordFail, Result.recordSuccess,
        List.length_append, List.length_singleton] at hr ⊢ <;>
      omega
  have hmerge : ∀ (r : Result) (m : Message), r.countsMatch → (r.merge m).countsMatch := by
    intro r m hr
    cases m <;>
      simp only [Result.countsMatch, Result.merge, Result.mergePost, Result.mergeErr,
        List.length_append, List.length_singleton] at hr ⊢ <;>
      omega
  have hfold : ∀ {α : Type} (f : Result → α → Result),
      (∀ r a, r.countsMatch → (f r a).countsMatch) →
      ∀ (l : List α) (r : Result), r.countsMatch → (l.foldl f r).countsMatch := by
    intro α f hf l
    induction l with
    | nil => intro r hr; exact hr
    | cons a as ih => intro r hr; exact ih _ (hf r a hr)
  have hloop : ∀ (lim : Int) (fuel : Nat) (i : Int) (r r' : Result), r.countsMatch →
      withoutConcurrentLoop net lim fuel i r = some r' → r'.countsMatch := by
    intro lim fuel
    induction fuel with
    | zero => intro i r r' _ h; simp [withoutConcurrentLoop] at h
    | succ fuel ih =>
      intro i r r' hr h
      unfold withoutConcurrentLoop at h
      by_cases hle : i ≤ lim
      · rw [if_pos hle] at h
        exact ih _ _ _ (hbody r i hr) h
      · rw [if_neg hle] at h
        simp only [Option.some.injEq] at h
        exact h ▸ hr
  refine ⟨hinit, ?_, ?_, fun l => hfold _ hbody l _ hinit,
    fun ms => hfold _ hmerge ms _ hinit, ?_, ?_⟩
  · intro r i
    refine ⟨hbody r i, ?_⟩
    unfold withoutConcurrentBody
    cases (fetchPost net i).2
    · right; simp [Result.recordSuccess]
    · left; simp [Result.recordFail]
  · intro r m
    refine ⟨hmerge r m, ?_⟩
    cases m with
    | post p => right; exact ⟨p, rfl, rfl, rfl, rfl, rfl⟩
    | err e => left; exact ⟨e, rfl, rfl, rfl, rfl, rfl⟩
  · intro lim elapsed fuel r h
    unfold withoutConcurrent at h
    cases hl : withoutConcurrentLoop net lim fuel 1 Result.init with
    | none => rw [hl] at h; simp at h
    | some r1 =>
      rw [hl] at h
      simp only [Option.some.injEq] at h
      have := hloop lim fuel 1 _ r1 hinit hl
      subst h
      exact this
  · intro lim elapsed sched s h
    exact (inv_exec net lim elapsed sched s h).counts

theorem counts_match_lists_witness :
    exec (stubFetcher [2]) 3 0 State.init demoSchedule = some demoState ∧
    demoState.result.countsMatch :=
  ⟨by decide,
    (counts_match_lists (stubFetcher [2])).2.2.2.2.2.2 3 0 demoSchedule demoState
      (by decide)⟩

end GoConcurrencyDemo
